import Mathlib

/-!
Shallow embedding of src/store/app/api/token.py.

The module token.py defines four functions: create_token, load_token,
create_refresh_token and load_refresh_token.  They wrap the external jwt
library (PyJWT), the settings object (store.settings), the server_time
function (store.utils) and the persistence collaborators
(store.app.api.db.Crud, store.app.api.model.Token), none of which are
present under src/.  Those collaborators are modelled from the spec, as
explained on each definition; the four functions themselves are
translated line by line from token.py.

Modelling choices, following the spec:
the time source is an explicit integer parameter in seconds (the spec
calls for an injectable current-server-time provider); a timedelta is an
integer number of seconds; the signed-token wire format is a string of
three dot-separated segments (header, claims, signature) whose segment
alphabet never contains a dot, with the signature recomputed from the
header and claims segments on decode, exactly as the spec describes the
standard signed-claims-token convention.
-/

namespace Store

/-- Claim values: the payload mapping sends string keys to serializable
values; strings and integers suffice for the properties studied here,
with integers in particular modelling the numeric Unix-timestamp
expiration claim. -/
inductive JValue where
  | vStr (s : String)
  | vInt (n : Int)
deriving DecidableEq

/-- A claims mapping, modelling a Python dict: key-value pairs in
insertion order, keys unique. -/
abbrev Claims := List (String × JValue)

/-- Python dict membership test, as in the source line
if "exp" in data. -/
def hasKey (k : String) : Claims → Bool
  | [] => false
  | (k2, _) :: rest => if k2 = k then true else hasKey k rest

/-- Python dict subscript lookup, returning none where Python raises
KeyError. -/
def dictGet (k : String) : Claims → Option JValue
  | [] => none
  | (k2, v) :: rest => if k2 = k then some v else dictGet k rest

/-- Python dict update with a single key: replaces in place if the key
exists, appends otherwise, as in the source line
to_encode.update with an exp entry. -/
def dictUpdate : Claims → String → JValue → Claims
  | [], k, v => [(k, v)]
  | (k2, v2) :: rest, k, v =>
    if k2 = k then (k, v) :: rest else (k2, v2) :: dictUpdate rest k v

/-- Little-endian base-10 digit list of a natural number, computed with
explicit fuel so that it is structurally recursive. -/
def natDigitsAux : Nat → Nat → List Nat
  | _, 0 => []
  | 0, _ + 1 => []
  | fuel + 1, n + 1 => ((n + 1) % 10) :: natDigitsAux fuel ((n + 1) / 10)

/-- Little-endian base-10 digits of a natural number. -/
def natDigits (n : Nat) : List Nat :=
  natDigitsAux n n

/-- Value of a little-endian digit list. -/
def natFromDigits (ds : List Nat) : Nat :=
  ds.foldr (fun d acc => d + 10 * acc) 0

/-- Decimal character rendering of a natural number (little-endian),
used for the token alphabet of the modelled wire format. -/
def natDigitChars (n : Nat) : List Char :=
  (natDigits n).map Nat.digitChar

/-- Inverse of Nat.digitChar on decimal digit characters. -/
def charToDigit (c : Char) : Nat :=
  c.toNat - 48

/-- Reads a maximal run of decimal digit characters. -/
def parseDigits : List Char → List Nat × List Char
  | [] => ([], [])
  | c :: rest =>
    if c.isDigit then
      let p := parseDigits rest
      (charToDigit c :: p.1, p.2)
    else ([], c :: rest)

/-- Reads a natural number written as a run of digit characters
(little-endian); an empty run denotes zero. -/
def parseNat (l : List Char) : Nat × List Char :=
  let p := parseDigits l
  (natFromDigits p.1, p.2)

/-- Serialized form of a character sequence: each character as the
decimal code point followed by a comma, the whole closed by a
semicolon.  The output alphabet is digits, commas and semicolons, so it
never contains a dot. -/
def serChars : List Char → List Char
  | [] => [';']
  | c :: cs => natDigitChars c.toNat ++ ',' :: serChars cs

/-- Serialized form of an integer: optional minus sign, decimal digits,
closing semicolon. -/
def serInt (n : Int) : List Char :=
  if n < 0 then '-' :: natDigitChars n.natAbs ++ [';']
  else natDigitChars n.toNat ++ [';']

/-- Serialized form of a claim value, tagged by kind. -/
def serJValue : JValue → List Char
  | .vStr s => 'S' :: serChars s.data
  | .vInt n => 'I' :: serInt n

/-- Serialized form of a claims mapping: the serialized pairs
concatenated in order; this is the claims segment of the token. -/
def serClaims : Claims → List Char
  | [] => []
  | (k, v) :: ps => serChars k.data ++ serJValue v ++ serClaims ps

/-- Fuel-driven parser for a serialized character sequence, inverse of
serChars. -/
def parseStrAux (fuel : Nat) (l : List Char) : Option (List Char × List Char) :=
  match l with
  | [] => none
  | c :: rest =>
    if c = ';' then some ([], rest)
    else
      match fuel with
      | 0 => none
      | f + 1 =>
        let p := parseNat (c :: rest)
        match p.2 with
        | ',' :: r2 => (parseStrAux f r2).map (fun q => (Char.ofNat p.1 :: q.1, q.2))
        | _ => none

/-- Parser for a serialized integer, inverse of serInt. -/
def parseInt : List Char → Option (Int × List Char)
  | [] => none
  | c :: rest =>
    if c = '-' then
      match parseNat rest with
      | (n, r) =>
        match r with
        | ';' :: r2 => some (-(n : Int), r2)
        | _ => none
    else
      match parseNat (c :: rest) with
      | (n, r) =>
        match r with
        | ';' :: r2 => some ((n : Int), r2)
        | _ => none

/-- Parser for a serialized claim value, inverse of serJValue. -/
def parseJValue : List Char → Option (JValue × List Char)
  | [] => none
  | c :: rest =>
    if c = 'S' then
      (parseStrAux rest.length rest).map (fun p => (JValue.vStr (String.mk p.1), p.2))
    else if c = 'I' then
      (parseInt rest).map (fun p => (JValue.vInt p.1, p.2))
    else none

/-- Fuel-driven parser for a serialized claims mapping; consumes the
whole input. -/
def parseClaimsAux (fuel : Nat) (l : List Char) : Option Claims :=
  match l with
  | [] => some []
  | c :: rest =>
    match fuel with
    | 0 => none
    | f + 1 =>
      match parseStrAux (c :: rest).length (c :: rest) with
      | some (kcs, r1) =>
        match parseJValue r1 with
        | some vr => (parseClaimsAux f vr.2).map (fun ps => (String.mk kcs, vr.1) :: ps)
        | none => none
      | none => none

/-- Parser for the claims segment, inverse of serClaims. -/
def parseClaims (l : List Char) : Option Claims :=
  parseClaimsAux l.length l

/-- Modelled from the spec: store.settings supplies a static secret key
(settings.crypto.jwt_secret); its concrete value is irrelevant, both
encode and decode read the same configuration. -/
def jwt_secret : String :=
  "test-jwt-secret"

/-- Modelled from the spec: store.settings supplies a fixed signing
algorithm identifier (settings.crypto.algorithm). -/
def algorithm : String :=
  "HS256"

/-- The fixed header segment of the modelled wire format, carrying the
algorithm identifier. -/
def headerChars : List Char :=
  algorithm.data

/-- Modelled from the spec: the signature of the jwt library, a
deterministic keyed function of the secret and of the serialized
header-plus-claims message. -/
def macSign (secret : String) (msg : List Char) : Nat :=
  (secret.data ++ msg).foldl (fun h c => h * 131 + c.toNat + 1) 7

/-- Splits a character list at every dot, the segment structure of the
wire format. -/
def splitDot : List Char → List (List Char)
  | [] => [[]]
  | c :: rest =>
    if c = '.' then [] :: splitDot rest
    else
      match splitDot rest with
      | [] => [[c]]
      | s :: ss => (c :: s) :: ss

/-- Modelled from the spec: jwt.encode.  Serializes the claims, signs
the header and claims segments with the secret, and emits the
three-segment dot-separated token string. -/
def jwt_encode (secret : String) (claims : Claims) : String :=
  let pl := serClaims claims
  let sg := natDigitChars (macSign secret (headerChars ++ '.' :: pl))
  String.mk (headerChars ++ '.' :: pl ++ '.' :: sg)

/-- Failure modes of the modelled jwt.decode; load_token collapses all
of them, so only their existence matters. -/
inductive JwtError where
  | malformed
  | badHeader
  | badSignature
  | invalidExpiration
  | expired
deriving DecidableEq

/-- Modelled from the spec: jwt.decode.  Splits the token into its
three segments, checks the header, recomputes and compares the
signature, parses the claims segment, and rejects the token when an
expiration claim lies at or before the current time.  Any failure is an
error value, modelling a raised exception. -/
def jwt_decode (secret : String) (now : Int) (token : String) : Except JwtError Claims :=
  match splitDot token.data with
  | [h, p, s] =>
    if h = headerChars then
      if s = natDigitChars (macSign secret (h ++ '.' :: p)) then
        match parseClaims p with
        | some claims =>
          match dictGet "exp" claims with
          | some (JValue.vInt e) => if e ≤ now then .error .expired else .ok claims
          | some _ => .error .invalidExpiration
          | none => .ok claims
        | none => .error .malformed
      else .error .badSignature
    else .error .badHeader
  | _ => .error .malformed

/-- The ValueError raised by create_token on a reserved-key collision. -/
inductive CreateTokenError where
  | valueError (msg : String)
deriving DecidableEq

/-- The fastapi HTTPException carried by load_token failures. -/
structure HTTPException where
  status_code : Nat
  detail : String
deriving DecidableEq

/-- Translation of create_token from token.py.  The current server time
is an explicit parameter now, modelling the server_time collaborator
from store.utils per the spec; expire_after is an optional number of
seconds, modelling the optional datetime.timedelta; exceptions are the
error branch of the result. -/
def create_token (now : Int) (data : Claims) (expire_after : Option Int) :
    Except CreateTokenError String :=
  if hasKey "exp" data then
    .error (.valueError "The payload should not contain an expiration time")
  else
    let to_encode := data
    let to_encode :=
      match expire_after with
      | some ttl => dictUpdate to_encode "exp" (JValue.vInt (now + ttl))
      | none => to_encode
    .ok (jwt_encode jwt_secret to_encode)

/-- Translation of load_token from token.py: jwt.decode under a
catch-all except clause that raises HTTPException 401 with detail
Invalid token. -/
def load_token (now : Int) (payload : String) : Except HTTPException Claims :=
  match jwt_decode jwt_secret now payload with
  | .ok data => .ok data
  | .error _ => .error { status_code := 401, detail := "Invalid token" }

/-- Modelled from the spec: store.app.api.model.Token, the persisted
record associating a user email with a token. -/
structure Token where
  email : String
deriving DecidableEq

/-- Modelled from the spec: store.app.api.db.Crud, the persistence
collaborator; add_token either succeeds or fails with some error, and
failures propagate to the caller. -/
structure Crud (ε : Type) where
  add_token : Token → Except ε Unit

/-- Failure modes of create_refresh_token: a propagated persistence
failure or a propagated ValueError from create_token. -/
inductive CreateRefreshError (ε : Type) where
  | crudError (e : ε)
  | valueError (msg : String)

/-- Result of create_refresh_token: the returned value or propagated
error, together with the list of add_token calls made on the
persistence collaborator, in order. -/
structure RefreshResult (ε : Type) where
  result : Except (CreateRefreshError ε) String
  addTokenCalls : List Token

/-- Translation of create_refresh_token from token.py: builds the Token
record, awaits crud.add_token (a failure propagates and the encode step
is never reached), then returns create_token on the single claim
mapping eml to the email, with no ttl. -/
def create_refresh_token (now : Int) (email : String) {ε : Type} (crud : Crud ε) :
    RefreshResult ε :=
  let token : Token := { email := email }
  match crud.add_token token with
  | .error e => { result := .error (.crudError e), addTokenCalls := [token] }
  | .ok _ =>
    match create_token now [("eml", JValue.vStr email)] none with
    | .error (.valueError m) => { result := .error (.valueError m), addTokenCalls := [token] }
    | .ok s => { result := .ok s, addTokenCalls := [token] }

/-- Failure modes of load_refresh_token: the HTTPException propagated
from load_token, or the KeyError from the subscript lookup. -/
inductive LoadRefreshError where
  | unauthorized (e : HTTPException)
  | keyError (k : String)
deriving DecidableEq

/-- Translation of load_refresh_token from token.py: load_token, then
the subscript lookup of eml, whose absence raises KeyError.  The
declared Python return type is str, but the function returns whatever
value sits under eml, hence the JValue result type. -/
def load_refresh_token (now : Int) (payload : String) : Except LoadRefreshError JValue :=
  match load_token now payload with
  | .ok data =>
    match dictGet "eml" data with
    | some v => .ok v
    | none => .error (.keyError "eml")
  | .error e => .error (.unauthorized e)

/-! Digit-level lemmas for the modelled wire format. -/

theorem natDigitsAux_lt_ten (fuel : Nat) :
    ∀ n d, d ∈ natDigitsAux fuel n → d < 10 := by
  induction fuel with
  | zero =>
    intro n d hd
    cases n <;> simp [natDigitsAux] at hd
  | succ f ih =>
    intro n d hd
    cases n with
    | zero => simp [natDigitsAux] at hd
    | succ m =>
      simp only [natDigitsAux, List.mem_cons] at hd
      rcases hd with h | h
      · subst h
        exact Nat.mod_lt _ (by norm_num)
      · exact ih _ _ h

theorem natFromDigits_nil : natFromDigits [] = 0 := rfl

theorem natFromDigits_cons (d : Nat) (ds : List Nat) :
    natFromDigits (d :: ds) = d + 10 * natFromDigits ds := rfl

theorem natFromDigits_natDigitsAux (fuel : Nat) :
    ∀ n, n ≤ fuel → natFromDigits (natDigitsAux fuel n) = n := by
  induction fuel with
  | zero =>
    intro n hn
    interval_cases n
    simp [natDigitsAux, natFromDigits]
  | succ f ih =>
    intro n hn
    cases n with
    | zero => simp [natDigitsAux, natFromDigits]
    | succ m =>
      have hdiv : (m + 1) / 10 ≤ f := by
        have := Nat.div_lt_self (Nat.succ_pos m) (by norm_num : 1 < 10)
        omega
      rw [natDigitsAux, natFromDigits_cons, ih _ hdiv, Nat.mod_add_div]

theorem natFromDigits_natDigits (n : Nat) : natFromDigits (natDigits n) = n :=
  natFromDigits_natDigitsAux n n le_rfl

theorem digitChar_isDigit : ∀ d, d < 10 → (Nat.digitChar d).isDigit = true := by decide

theorem charToDigit_digitChar : ∀ d, d < 10 → charToDigit (Nat.digitChar d) = d := by decide

theorem isDigit_ne {c x : Char} (hc : c.isDigit = true) (hx : x.isDigit = false) : c ≠ x := by
  intro he
  subst he
  rw [hc] at hx
  cases hx

theorem mem_natDigitChars_isDigit {n : Nat} {c : Char} (h : c ∈ natDigitChars n) :
    c.isDigit = true := by
  simp only [natDigitChars, natDigits, List.mem_map] at h
  obtain ⟨d, hd, rfl⟩ := h
  exact digitChar_isDigit d (natDigitsAux_lt_ten _ _ _ hd)

theorem parseDigits_append (ds : List Nat) (hds : ∀ d ∈ ds, d < 10) (rest : List Char)
    (hrest : rest.head?.all (fun c => !c.isDigit) = true) :
    parseDigits (ds.map Nat.digitChar ++ rest) = (ds, rest) := by
  induction ds with
  | nil =>
    cases rest with
    | nil => simp [parseDigits]
    | cons c t =>
      simp only [Option.all_some, List.head?_cons, Bool.not_eq_eq_eq_not, Bool.not_true] at hrest
      simp [parseDigits, hrest]
  | cons d ds ih =>
    have hd : d < 10 := hds d (List.mem_cons_self d ds)
    have ih2 := ih (fun x hx => hds x (List.mem_cons_of_mem d hx))
    simp [parseDigits, digitChar_isDigit d hd, charToDigit_digitChar d hd, ih2]

theorem parseNat_append (n : Nat) (rest : List Char)
    (hrest : rest.head?.all (fun c => !c.isDigit) = true) :
    parseNat (natDigitChars n ++ rest) = (n, rest) := by
  have hds : ∀ d ∈ natDigits n, d < 10 := fun d hd => natDigitsAux_lt_ten n n d hd
  simp [parseNat, natDigitChars, parseDigits_append (natDigits n) hds rest hrest,
    natFromDigits_natDigits]

/-! Parser-serializer roundtrip lemmas. -/

theorem parseStrAux_step (f : Nat) (x : Char) (xs : List Char) (hx : x ≠ ';') :
    parseStrAux (f + 1) (x :: xs) =
      match (parseNat (x :: xs)).2 with
      | ',' :: r2 => (parseStrAux f r2).map (fun q => (Char.ofNat (parseNat (x :: xs)).1 :: q.1, q.2))
      | _ => none := by
  simp only [parseStrAux, if_neg hx]

theorem parseStrAux_serChars (cs : List Char) :
    ∀ fuel, cs.length ≤ fuel → ∀ rest, parseStrAux fuel (serChars cs ++ rest) = some (cs, rest) := by
  induction cs with
  | nil =>
    intro fuel _ rest
    rw [serChars, List.cons_append, List.nil_append, parseStrAux.eq_def]
    simp
  | cons c cs ih =>
    intro fuel hf rest
    obtain ⟨f, rfl⟩ : ∃ f, fuel = f + 1 := ⟨fuel - 1, by simp only [List.length_cons] at hf; omega⟩
    have hlen : cs.length ≤ f := by simp only [List.length_cons] at hf; omega
    have hassoc : serChars (c :: cs) ++ rest
        = natDigitChars c.toNat ++ (',' :: (serChars cs ++ rest)) := by
      simp [serChars]
    have hpn : parseNat (natDigitChars c.toNat ++ (',' :: (serChars cs ++ rest)))
        = (c.toNat, ',' :: (serChars cs ++ rest)) :=
      parseNat_append _ _ (by simp)
    rw [hassoc]
    cases hE : natDigitChars c.toNat with
    | nil =>
      rw [hE, List.nil_append] at hpn
      rw [List.nil_append, parseStrAux_step f ',' _ (by decide), hpn]
      simp [ih f hlen rest, Char.ofNat_toNat]
    | cons d ds =>
      have hdne : d ≠ ';' := by
        have hdig : d.isDigit = true :=
          mem_natDigitChars_isDigit (by rw [hE]; exact List.mem_cons_self d ds)
        exact isDigit_ne hdig (by decide)
      rw [hE, List.cons_append] at hpn
      rw [List.cons_append, parseStrAux_step f d _ hdne, hpn]
      simp [ih f hlen rest, Char.ofNat_toNat]

theorem parseInt_serInt (n : Int) (rest : List Char) :
    parseInt (serInt n ++ rest) = some (n, rest) := by
  by_cases hn : n < 0
  · have hpn : parseNat (natDigitChars n.natAbs ++ (';' :: rest)) = (n.natAbs, ';' :: rest) :=
      parseNat_append _ _ (by simp)
    have hshape : serInt n ++ rest = '-' :: (natDigitChars n.natAbs ++ (';' :: rest)) := by
      rw [serInt, if_pos hn]
      simp
    rw [hshape]
    simp only [parseInt, if_pos rfl]
    rw [hpn]
    simp
    rw [abs_of_neg hn, neg_neg]
  · have hpn : parseNat (natDigitChars n.toNat ++ (';' :: rest)) = (n.toNat, ';' :: rest) :=
      parseNat_append _ _ (by simp)
    have hshape : serInt n ++ rest = natDigitChars n.toNat ++ (';' :: rest) := by
      rw [serInt, if_neg hn]
      simp
    rw [hshape]
    cases hE : natDigitChars n.toNat with
    | nil =>
      rw [hE, List.nil_append] at hpn
      rw [List.nil_append]
      simp only [parseInt, if_neg (by decide : ¬(';' = '-'))]
      rw [hpn]
      simp
      omega
    | cons d ds =>
      have hdig : d.isDigit = true :=
        mem_natDigitChars_isDigit (by rw [hE]; exact List.mem_cons_self d ds)
      have hdne : d ≠ '-' := isDigit_ne hdig (by decide)
      rw [hE, List.cons_append] at hpn
      rw [List.cons_append]
      simp only [parseInt, if_neg hdne]
      rw [hpn]
      simp
      omega

theorem parseJValue_serJValue (v : JValue) (rest : List Char) :
    parseJValue (serJValue v ++ rest) = some (v, rest) := by
  cases v with
  | vStr s =>
    rw [serJValue, List.cons_append, parseJValue, if_pos rfl]
    have hlen : s.data.length ≤ (serChars s.data ++ rest).length := by
      have h1 : s.data.length ≤ (serChars s.data).length := by
        clear rest
        induction s.data with
        | nil => simp [serChars]
        | cons c cs ih => simp [serChars]; omega
      simp only [List.length_append]
      omega
    rw [parseStrAux_serChars s.data _ hlen rest]
    simp
  | vInt n =>
    rw [serJValue, List.cons_append, parseJValue, if_neg (by decide), if_pos rfl,
      parseInt_serInt n rest]
    simp

theorem serChars_ne_nil (cs : List Char) : serChars cs ≠ [] := by
  cases cs <;> simp [serChars]

theorem serChars_length (cs : List Char) : cs.length ≤ (serChars cs).length := by
  induction cs with
  | nil => simp [serChars]
  | cons c cs ih => simp [serChars]; omega

theorem parseClaimsAux_serClaims (ps : Claims) :
    ∀ fuel, ps.length ≤ fuel → parseClaimsAux fuel (serClaims ps) = some ps := by
  induction ps with
  | nil =>
    intro fuel _
    rw [serClaims, parseClaimsAux.eq_def]
  | cons kv ps ih =>
    obtain ⟨k, v⟩ := kv
    intro fuel hf
    obtain ⟨f, rfl⟩ : ∃ f, fuel = f + 1 := ⟨fuel - 1, by simp only [List.length_cons] at hf; omega⟩
    have hlen : ps.length ≤ f := by simp only [List.length_cons] at hf; omega
    obtain ⟨c, t, hct⟩ : ∃ c t, serChars k.data = c :: t := by
      cases hk : serChars k.data with
      | nil => exact absurd hk (serChars_ne_nil k.data)
      | cons c t => exact ⟨c, t, rfl⟩
    have hshape : serClaims ((k, v) :: ps)
        = c :: (t ++ (serJValue v ++ serClaims ps)) := by
      rw [serClaims, hct]
      simp
    have hstr : parseStrAux (c :: (t ++ (serJValue v ++ serClaims ps))).length
        (c :: (t ++ (serJValue v ++ serClaims ps))) = some (k.data, serJValue v ++ serClaims ps) := by
      have hfuel : k.data.length ≤ (c :: (t ++ (serJValue v ++ serClaims ps))).length := by
        have h1 := serChars_length k.data
        rw [hct] at h1
        simp only [List.length_cons, List.length_append] at h1 ⊢
        omega
      have := parseStrAux_serChars k.data _ hfuel (serJValue v ++ serClaims ps)
      rw [hct, List.cons_append] at this
      exact this
    rw [hshape, parseClaimsAux.eq_def]
    simp only []
    rw [hstr]
    simp only []
    rw [parseJValue_serJValue v (serClaims ps)]
    simp only []
    rw [ih f hlen]
    simp

theorem parseClaims_serClaims (ps : Claims) : parseClaims (serClaims ps) = some ps := by
  have hlen : ps.length ≤ (serClaims ps).length := by
    induction ps with
    | nil => simp [serClaims]
    | cons kv ps ih =>
      obtain ⟨k, v⟩ := kv
      have h1 : 1 ≤ (serChars k.data).length := by
        cases hk : serChars k.data with
        | nil => exact absurd hk (serChars_ne_nil k.data)
        | cons c t => simp
      simp only [serClaims, List.length_cons, List.length_append]
      omega
  exact parseClaimsAux_serClaims ps _ hlen

/-! Segment-alphabet lemmas: no serialized segment contains a dot. -/

theorem not_mem_natDigitChars (n : Nat) : '.' ∉ natDigitChars n := by
  intro h
  have := mem_natDigitChars_isDigit h
  simp at this

theorem not_mem_serChars (cs : List Char) : '.' ∉ serChars cs := by
  induction cs with
  | nil => simp [serChars]
  | cons c cs ih =>
    simp only [serChars, List.mem_append, List.mem_cons]
    rintro (h | h | h)
    · exact not_mem_natDigitChars c.toNat h
    · simp at h
    · exact ih h

theorem not_mem_serInt (n : Int) : '.' ∉ serInt n := by
  rw [serInt]
  by_cases hn : n < 0
  · rw [if_pos hn]
    intro h
    rcases List.mem_cons.mp h with he | hm
    · exact absurd he (by decide)
    · rcases List.mem_append.mp hm with h1 | h1
      · exact not_mem_natDigitChars n.natAbs h1
      · simp at h1
  · rw [if_neg hn]
    intro h
    rcases List.mem_append.mp h with h1 | h1
    · exact not_mem_natDigitChars n.toNat h1
    · simp at h1

theorem not_mem_serJValue (v : JValue) : '.' ∉ serJValue v := by
  cases v with
  | vStr s =>
    simp only [serJValue, List.mem_cons]
    rintro (h | h)
    · simp at h
    · exact not_mem_serChars s.data h
  | vInt n =>
    simp only [serJValue, List.mem_cons]
    rintro (h | h)
    · simp at h
    · exact not_mem_serInt n h

theorem not_mem_serClaims (ps : Claims) : '.' ∉ serClaims ps := by
  induction ps with
  | nil => simp [serClaims]
  | cons kv ps ih =>
    obtain ⟨k, v⟩ := kv
    simp only [serClaims, List.mem_append]
    rintro ((h | h) | h)
    · exact not_mem_serChars k.data h
    · exact not_mem_serJValue v h
    · exact ih h

theorem not_mem_headerChars : '.' ∉ headerChars := by decide

/-! The dot-splitting of the wire format. -/

theorem splitDot_ne_nil (l : List Char) : splitDot l ≠ [] := by
  induction l with
  | nil => simp [splitDot]
  | cons c rest ih =>
    rw [splitDot]
    split
    · simp
    · split
      · simp
      · simp

theorem splitDot_no_dot {a : List Char} (h : '.' ∉ a) : splitDot a = [a] := by
  induction a with
  | nil => rfl
  | cons c rest ih =>
    have hc : ¬(c = '.') := fun he => h (by rw [he]; exact List.mem_cons_self _ _)
    have hrest : '.' ∉ rest := fun hm => h (List.mem_cons_of_mem c hm)
    rw [splitDot, if_neg hc, ih hrest]

theorem splitDot_append {a : List Char} (b : List Char) (h : '.' ∉ a) :
    splitDot (a ++ '.' :: b) = a :: splitDot b := by
  induction a with
  | nil =>
    rw [List.nil_append, splitDot, if_pos rfl]
  | cons c rest ih =>
    have hc : ¬(c = '.') := fun he => h (by rw [he]; exact List.mem_cons_self _ _)
    have hrest : '.' ∉ rest := fun hm => h (List.mem_cons_of_mem c hm)
    rw [List.cons_append, splitDot, if_neg hc, ih hrest]

theorem splitDot_of_mem {l : List Char} (h : '.' ∈ l) :
    ∃ x y ys, splitDot l = x :: y :: ys := by
  induction l with
  | nil => simp at h
  | cons c rest ih =>
    by_cases hc : c = '.'
    · subst hc
      rw [splitDot, if_pos rfl]
      cases hE : splitDot rest with
      | nil => exact absurd hE (splitDot_ne_nil rest)
      | cons z zs => exact ⟨[], z, zs, rfl⟩
    · have hrest : '.' ∈ rest := by
        rcases List.mem_cons.mp h with he | hm
        · exact absurd he.symm hc
        · exact hm
      obtain ⟨x, y, ys, hxy⟩ := ih hrest
      rw [splitDot, if_neg hc, hxy]
      exact ⟨c :: x, y, ys, rfl⟩

/-! Structure of an encoded token and the decode-encode roundtrip. -/

theorem splitDot_jwt_encode (secret : String) (claims : Claims) :
    splitDot (jwt_encode secret claims).data =
      [headerChars, serClaims claims,
        natDigitChars (macSign secret (headerChars ++ '.' :: serClaims claims))] := by
  show splitDot (headerChars ++ '.' :: (serClaims claims ++ '.' ::
      natDigitChars (macSign secret (headerChars ++ '.' :: serClaims claims)))) = _
  rw [splitDot_append _ not_mem_headerChars,
    splitDot_append _ (not_mem_serClaims claims),
    splitDot_no_dot (not_mem_natDigitChars _)]

theorem jwt_decode_encode (secret : String) (now : Int) (claims : Claims) :
    jwt_decode secret now (jwt_encode secret claims) =
      match dictGet "exp" claims with
      | some (JValue.vInt e) => if e ≤ now then .error .expired else .ok claims
      | some _ => .error .invalidExpiration
      | none => .ok claims := by
  rw [jwt_decode, splitDot_jwt_encode]
  simp [parseClaims_serClaims]

/-! Dictionary lemmas used by the claim theorems. -/

theorem dictGet_none_of_hasKey_false {k : String} {d : Claims} (h : hasKey k d = false) :
    dictGet k d = none := by
  induction d with
  | nil => rfl
  | cons kv rest ih =>
    obtain ⟨k2, v2⟩ := kv
    rw [hasKey] at h
    rw [dictGet]
    by_cases he : k2 = k
    · rw [if_pos he] at h
      cases h
    · rw [if_neg he] at h
      rw [if_neg he, ih h]

theorem dictUpdate_of_hasKey_false {k : String} {d : Claims} (v : JValue)
    (h : hasKey k d = false) : dictUpdate d k v = d ++ [(k, v)] := by
  induction d with
  | nil => rfl
  | cons kv rest ih =>
    obtain ⟨k2, v2⟩ := kv
    rw [hasKey] at h
    rw [dictUpdate]
    by_cases he : k2 = k
    · rw [if_pos he] at h
      cases h
    · rw [if_neg he] at h
      rw [if_neg he, ih h, List.cons_append]

theorem dictGet_append_last {k : String} {d : Claims} (v : JValue)
    (h : hasKey k d = false) : dictGet k (d ++ [(k, v)]) = some v := by
  induction d with
  | nil => simp [dictGet]
  | cons kv rest ih =>
    obtain ⟨k2, v2⟩ := kv
    rw [hasKey] at h
    rw [List.cons_append, dictGet]
    by_cases he : k2 = k
    · rw [if_pos he] at h
      cases h
    · rw [if_neg he] at h
      rw [if_neg he, ih h]

theorem set_ne_of_ne {l : List Char} {i : Nat} {a : Char} (h : i < l.length)
    (hne : a ≠ l.get ⟨i, h⟩) : l.set i a ≠ l := by
  induction l generalizing i with
  | nil => simp at h
  | cons c t ih =>
    intro he
    cases i with
    | zero =>
      have hac : a = c := by simpa [List.set] using he
      exact hne (by simpa using hac)
    | succ j =>
      have hj : j < t.length := by simpa using h
      have hset : t.set j a = t := by simpa [List.set] using he
      have hne2 : a ≠ t.get ⟨j, hj⟩ := by simpa using hne
      exact ih hj hne2 hset

theorem jwt_decode_not_three (secret : String) (now : Int) (l : List Char)
    (x y z w : List Char) (ws : List (List Char))
    (h : splitDot l = x :: y :: z :: w :: ws) :
    jwt_decode secret now (String.mk l) = .error .malformed := by
  rw [jwt_decode]
  rw [show (String.mk l).data = l from rfl, h]

/-! The claim theorems. -/

/-- C1: for every claims mapping C that does not contain the reserved key
"exp", encoding C with create_token (no ttl) and then decoding with
load_token returns a mapping equal to C, at any decode time. -/
theorem claim_C1_roundtrip (now now2 : Int) (c : Claims)
    (_hkeys : (c.map Prod.fst).Nodup) (hexp : hasKey "exp" c = false) :
    ∃ tok, create_token now c none = .ok tok ∧ load_token now2 tok = .ok c := by
  refine ⟨jwt_encode jwt_secret c, ?_, ?_⟩
  · simp [create_token, hexp]
  · simp [load_token, jwt_decode_encode, dictGet_none_of_hasKey_false hexp]

theorem claim_C1_roundtrip_witness :
    ((([("a", JValue.vInt 1), ("b", JValue.vStr "x")] : Claims).map Prod.fst).Nodup ∧
      hasKey "exp" [("a", JValue.vInt 1), ("b", JValue.vStr "x")] = false) ∧
    ∃ tok, create_token 3 [("a", JValue.vInt 1), ("b", JValue.vStr "x")] none = .ok tok ∧
      load_token 99 tok = .ok [("a", JValue.vInt 1), ("b", JValue.vStr "x")] :=
  ⟨⟨by decide, by decide⟩, claim_C1_roundtrip 3 99 _ (by decide) (by decide)⟩

/-- C2: for every claims mapping that already contains the key "exp",
create_token raises ValueError and produces no token, whatever the ttl
argument is. -/
theorem claim_C2_reserved_key (now : Int) (c : Claims) (ttl : Option Int)
    (h : hasKey "exp" c = true) :
    create_token now c ttl =
      .error (.valueError "The payload should not contain an expiration time") := by
  simp [create_token, h]

theorem claim_C2_reserved_key_witness :
    hasKey "exp" [("exp", JValue.vInt 123)] = true ∧
      create_token 0 [("exp", JValue.vInt 123)] (some 5) =
        .error (.valueError "The payload should not contain an expiration time") :=
  ⟨by decide, claim_C2_reserved_key 0 [("exp", JValue.vInt 123)] (some 5) (by decide)⟩

/-- C3: every failure of the decode step, whatever its cause, makes
load_token fail with the one HTTPException carrying status 401 and the
fixed detail Invalid token; no claims mapping is returned. -/
theorem claim_C3_uniform_unauthorized (now : Int) (t : String) (e : JwtError)
    (h : jwt_decode jwt_secret now t = .error e) :
    load_token now t = .error { status_code := 401, detail := "Invalid token" } := by
  simp [load_token, h]

theorem claim_C3_uniform_unauthorized_witness :
    jwt_decode jwt_secret 5 "x" = .error JwtError.malformed ∧
      load_token 5 "x" = .error { status_code := 401, detail := "Invalid token" } :=
  ⟨rfl, claim_C3_uniform_unauthorized 5 "x" JwtError.malformed rfl⟩

/-- C4: for every email and every persistence collaborator whose
add_token succeeds, load_refresh_token applied to the token produced by
create_refresh_token returns that email, and exactly one add_token call,
carrying exactly that email, is made on the collaborator. -/
theorem claim_C4_refresh_roundtrip {ε : Type} (now now2 : Int) (email : String)
    (crud : Crud ε) (h : crud.add_token { email := email } = .ok ()) :
    ∃ tok,
      create_refresh_token now email crud =
        { result := .ok tok, addTokenCalls := [{ email := email }] } ∧
      load_refresh_token now2 tok = .ok (JValue.vStr email) := by
  have hkey : hasKey "exp" [("eml", JValue.vStr email)] = false := rfl
  have hexp : dictGet "exp" [("eml", JValue.vStr email)] = none := rfl
  have heml : dictGet "eml" [("eml", JValue.vStr email)] =
      some (JValue.vStr email) := rfl
  refine ⟨jwt_encode jwt_secret [("eml", JValue.vStr email)], ?_, ?_⟩
  · simp [create_refresh_token, h, create_token, hkey]
  · simp [load_refresh_token, load_token, jwt_decode_encode, hexp, heml]

theorem claim_C4_refresh_roundtrip_witness :
    (⟨fun _ => Except.ok ()⟩ : Crud Unit).add_token { email := "a@example.com" } =
        .ok () ∧
    ∃ tok,
      create_refresh_token 0 "a@example.com" (⟨fun _ => Except.ok ()⟩ : Crud Unit) =
        { result := .ok tok, addTokenCalls := [{ email := "a@example.com" }] } ∧
      load_refresh_token 7 tok = .ok (JValue.vStr "a@example.com") :=
  ⟨rfl, claim_C4_refresh_roundtrip 0 7 "a@example.com" _ rfl⟩

/-- C5: for every claims mapping without the reserved key and every
negative ttl, the token produced by create_token fails to decode with
load_token, with the 401 Invalid-token error, at every decode time at or
after the encode time. -/
theorem claim_C5_negative_ttl (now now2 ttl : Int) (c : Claims) (tok : String)
    (hexp : hasKey "exp" c = false) (httl : ttl < 0) (hle : now ≤ now2)
    (htok : create_token now c (some ttl) = .ok tok) :
    load_token now2 tok = .error { status_code := 401, detail := "Invalid token" } := by
  have htok2 : tok = jwt_encode jwt_secret (c ++ [("exp", JValue.vInt (now + ttl))]) := by
    rw [create_token] at htok
    simp only [hexp, Bool.false_eq_true, if_false] at htok
    rw [dictUpdate_of_hasKey_false _ hexp] at htok
    exact (Except.ok.injEq _ _ |>.mp htok).symm
  subst htok2
  have hdec : jwt_decode jwt_secret now2
      (jwt_encode jwt_secret (c ++ [("exp", JValue.vInt (now + ttl))])) =
        .error .expired := by
    rw [jwt_decode_encode, dictGet_append_last _ hexp]
    have hcond : now + ttl ≤ now2 := by omega
    simp [hcond]
  simp [load_token, hdec]

theorem claim_C5_negative_ttl_witness :
    (hasKey "exp" [("a", JValue.vInt 1)] = false ∧ (-1 : Int) < 0 ∧ (10 : Int) ≤ 10 ∧
      create_token 10 [("a", JValue.vInt 1)] (some (-1)) =
        .ok (jwt_encode jwt_secret [("a", JValue.vInt 1), ("exp", JValue.vInt 9)])) ∧
    load_token 10 (jwt_encode jwt_secret [("a", JValue.vInt 1), ("exp", JValue.vInt 9)]) =
      .error { status_code := 401, detail := "Invalid token" } :=
  ⟨⟨by decide, by decide, by decide, by rfl⟩,
    claim_C5_negative_ttl 10 10 (-1) [("a", JValue.vInt 1)] _ (by decide) (by decide)
      (by decide) (by rfl)⟩

/-- C6: with a ttl, create_token signs the claims extended, under the
reserved key "exp", with the absolute expiration time now plus ttl, and
a decode before that expiration returns the original mapping together
with that expiration entry. -/
theorem claim_C6_ttl_injection (now now2 ttl : Int) (c : Claims)
    (hexp : hasKey "exp" c = false) (hvalid : now2 < now + ttl) :
    create_token now c (some ttl) =
        .ok (jwt_encode jwt_secret (c ++ [("exp", JValue.vInt (now + ttl))])) ∧
      load_token now2 (jwt_encode jwt_secret (c ++ [("exp", JValue.vInt (now + ttl))])) =
        .ok (c ++ [("exp", JValue.vInt (now + ttl))]) := by
  constructor
  · simp [create_token, hexp, dictUpdate_of_hasKey_false _ hexp]
  · have hdec : jwt_decode jwt_secret now2
        (jwt_encode jwt_secret (c ++ [("exp", JValue.vInt (now + ttl))])) =
          .ok (c ++ [("exp", JValue.vInt (now + ttl))]) := by
      rw [jwt_decode_encode, dictGet_append_last _ hexp]
      have hcond : ¬(now + ttl ≤ now2) := by omega
      simp [hcond]
    simp [load_token, hdec]

theorem claim_C6_ttl_injection_witness :
    (hasKey "exp" [("a", JValue.vInt 1)] = false ∧ (30 : Int) < 0 + 60) ∧
    (create_token 0 [("a", JValue.vInt 1)] (some 60) =
        .ok (jwt_encode jwt_secret [("a", JValue.vInt 1), ("exp", JValue.vInt (0 + 60))]) ∧
      load_token 30 (jwt_encode jwt_secret [("a", JValue.vInt 1), ("exp", JValue.vInt (0 + 60))]) =
        .ok [("a", JValue.vInt 1), ("exp", JValue.vInt (0 + 60))]) :=
  ⟨⟨by decide, by decide⟩, claim_C6_ttl_injection 0 30 60 [("a", JValue.vInt 1)]
    (by decide) (by decide)⟩

/-- C7: a validly signed token whose decoded claims lack the key "eml"
makes load_refresh_token fail with the KeyError-kind error, which is a
different error from every Unauthorized-kind one. -/
theorem claim_C7_missing_eml (now : Int) (t : String) (d : Claims)
    (hok : jwt_decode jwt_secret now t = .ok d) (heml : dictGet "eml" d = none) :
    load_refresh_token now t = .error (.keyError "eml") ∧
      ∀ e, LoadRefreshError.keyError "eml" ≠ LoadRefreshError.unauthorized e := by
  constructor
  · simp [load_refresh_token, load_token, hok, heml]
  · intro e he
    cases he

theorem claim_C7_missing_eml_witness :
    (jwt_decode jwt_secret 4 (jwt_encode jwt_secret [("a", JValue.vInt 1)]) =
        .ok [("a", JValue.vInt 1)] ∧
      dictGet "eml" [("a", JValue.vInt 1)] = none) ∧
    (load_refresh_token 4 (jwt_encode jwt_secret [("a", JValue.vInt 1)]) =
        .error (.keyError "eml") ∧
      ∀ e, LoadRefreshError.keyError "eml" ≠ LoadRefreshError.unauthorized e) :=
  ⟨⟨rfl, rfl⟩, claim_C7_missing_eml 4 (jwt_encode jwt_secret [("a", JValue.vInt 1)])
    [("a", JValue.vInt 1)] rfl rfl⟩

/-- C8: when the persistence collaborator's add_token raises,
create_refresh_token propagates exactly that failure, no token string is
produced, and the single add_token call, made before any encoding, is
the one carrying the email. -/
theorem claim_C8_crud_failure {ε : Type} (now : Int) (email : String)
    (crud : Crud ε) (e : ε) (h : crud.add_token { email := email } = .error e) :
    create_refresh_token now email crud =
      { result := .error (.crudError e), addTokenCalls := [{ email := email }] } := by
  simp [create_refresh_token, h]

theorem claim_C8_crud_failure_witness :
    (⟨fun _ => Except.error ()⟩ : Crud Unit).add_token { email := "a@b" } =
        .error () ∧
    create_refresh_token 0 "a@b" (⟨fun _ => Except.error ()⟩ : Crud Unit) =
      { result := .error (.crudError ()), addTokenCalls := [{ email := "a@b" }] } :=
  ⟨rfl, claim_C8_crud_failure 0 "a@b" _ () rfl⟩

/-- C9: flipping any single character of the signature segment of a
token produced by create_token makes load_token fail with the 401
Invalid-token error. -/
theorem claim_C9_tamper (now now2 : Int) (c : Claims) (ttl : Option Int) (tok : String)
    (hexp : hasKey "exp" c = false) (htok : create_token now c ttl = .ok tok)
    (hseg pseg sseg : List Char) (hsplit : splitDot tok.data = [hseg, pseg, sseg])
    (i : Nat) (hi : i < sseg.length) (ch : Char) (hch : ch ≠ sseg.get ⟨i, hi⟩) :
    load_token now2 (String.mk (hseg ++ '.' :: pseg ++ '.' :: sseg.set i ch)) =
      .error { status_code := 401, detail := "Invalid token" } := by
  obtain ⟨c2, htok2⟩ : ∃ c2, tok = jwt_encode jwt_secret c2 := by
    cases ttl with
    | none =>
      refine ⟨c, ?_⟩
      rw [create_token] at htok
      simp only [hexp, Bool.false_eq_true, if_false] at htok
      exact ((Except.ok.injEq _ _).mp htok).symm
    | some t =>
      refine ⟨dictUpdate c "exp" (JValue.vInt (now + t)), ?_⟩
      rw [create_token] at htok
      simp only [hexp, Bool.false_eq_true, if_false] at htok
      exact ((Except.ok.injEq _ _).mp htok).symm
  subst htok2
  rw [splitDot_jwt_encode] at hsplit
  obtain ⟨h1, h2, h3⟩ :
      headerChars = hseg ∧ serClaims c2 = pseg ∧
        natDigitChars (macSign jwt_secret (headerChars ++ '.' :: serClaims c2)) = sseg := by
    simpa using hsplit
  subst h1
  subst h2
  subst h3
  by_cases hdot : ch = '.'
  · subst hdot
    have hmem : '.' ∈ (natDigitChars
        (macSign jwt_secret (headerChars ++ '.' :: serClaims c2))).set i '.' := by
      have hl : i < ((natDigitChars
          (macSign jwt_secret (headerChars ++ '.' :: serClaims c2))).set i '.').length := by
        simpa using hi
      have hg := List.getElem_set_self hl
      have hm2 := List.getElem_mem hl
      rw [hg] at hm2
      exact hm2
    obtain ⟨x, y, ys, hxy⟩ := splitDot_of_mem hmem
    have h4 : splitDot (headerChars ++ '.' :: (serClaims c2 ++ '.' ::
        (natDigitChars (macSign jwt_secret (headerChars ++ '.' :: serClaims c2))).set i '.')) =
          headerChars :: serClaims c2 :: x :: y :: ys := by
      rw [splitDot_append _ not_mem_headerChars,
        splitDot_append _ (not_mem_serClaims c2), hxy]
    have hdec := jwt_decode_not_three jwt_secret now2 _ _ _ _ _ _ h4
    simp [load_token, hdec]
  · have hnodot : '.' ∉ (natDigitChars
        (macSign jwt_secret (headerChars ++ '.' :: serClaims c2))).set i ch := by
      intro hm
      rcases List.mem_or_eq_of_mem_set hm with hmm | hmm
      · exact not_mem_natDigitChars _ hmm
      · exact hdot hmm.symm
    have hsne : (natDigitChars
        (macSign jwt_secret (headerChars ++ '.' :: serClaims c2))).set i ch ≠
          natDigitChars (macSign jwt_secret (headerChars ++ '.' :: serClaims c2)) :=
      set_ne_of_ne hi hch
    have h4 : splitDot (headerChars ++ '.' :: (serClaims c2 ++ '.' ::
        (natDigitChars (macSign jwt_secret (headerChars ++ '.' :: serClaims c2))).set i ch)) =
          [headerChars, serClaims c2,
            (natDigitChars (macSign jwt_secret (headerChars ++ '.' :: serClaims c2))).set i ch] := by
      rw [splitDot_append _ not_mem_headerChars,
        splitDot_append _ (not_mem_serClaims c2), splitDot_no_dot hnodot]
    have hdec : jwt_decode jwt_secret now2 (String.mk (headerChars ++ '.' ::
        (serClaims c2 ++ '.' ::
          (natDigitChars (macSign jwt_secret (headerChars ++ '.' :: serClaims c2))).set i ch))) =
            .error .badSignature := by
      rw [jwt_decode]
      rw [show (String.mk (headerChars ++ '.' :: (serClaims c2 ++ '.' ::
        (natDigitChars (macSign jwt_secret (headerChars ++ '.' :: serClaims c2))).set i ch))).data =
          headerChars ++ '.' :: (serClaims c2 ++ '.' ::
            (natDigitChars (macSign jwt_secret (headerChars ++ '.' :: serClaims c2))).set i ch)
        from rfl]
      rw [h4]
      simp [hsne]
    simp [load_token, hdec]

theorem claim_C9_tamper_witness :
    load_token 0 (String.mk (headerChars ++ '.' :: serClaims [("a", JValue.vInt 1)] ++ '.' ::
        (natDigitChars (macSign jwt_secret
          (headerChars ++ '.' :: serClaims [("a", JValue.vInt 1)]))).set 0 'X')) =
      .error { status_code := 401, detail := "Invalid token" } :=
  claim_C9_tamper 0 0 [("a", JValue.vInt 1)] none
    (jwt_encode jwt_secret [("a", JValue.vInt 1)]) (by decide) rfl
    headerChars (serClaims [("a", JValue.vInt 1)])
    (natDigitChars (macSign jwt_secret (headerChars ++ '.' :: serClaims [("a", JValue.vInt 1)])))
    (splitDot_jwt_encode jwt_secret [("a", JValue.vInt 1)])
    0 (by decide) 'X' (by decide)

/-- C10: load_refresh_token validates nothing beyond a successful decode
and the presence of the key "eml": it returns the value found under
"eml" verbatim, whatever it is, for every validly signed token. -/
theorem claim_C10_verbatim (now : Int) (t : String) (d : Claims) (v : JValue)
    (hok : jwt_decode jwt_secret now t = .ok d) (heml : dictGet "eml" d = some v) :
    load_refresh_token now t = .ok v := by
  simp [load_refresh_token, load_token, hok, heml]

theorem claim_C10_verbatim_witness :
    (jwt_decode jwt_secret 0 (jwt_encode jwt_secret [("eml", JValue.vInt 7)]) =
        .ok [("eml", JValue.vInt 7)] ∧
      dictGet "eml" [("eml", JValue.vInt 7)] = some (JValue.vInt 7)) ∧
    load_refresh_token 0 (jwt_encode jwt_secret [("eml", JValue.vInt 7)]) =
      .ok (JValue.vInt 7) :=
  ⟨⟨rfl, rfl⟩, claim_C10_verbatim 0 (jwt_encode jwt_secret [("eml", JValue.vInt 7)])
    [("eml", JValue.vInt 7)] (JValue.vInt 7) rfl rfl⟩

end Store
